import Mathlib

/-!
Verification development for the package-listing subsystem declared in
src/gtk/packagesview.h (classes PackagesView, PackagesTreeModelGenerator,
PackagesColumns, PackagesMarker).  The repository ships only the header
declarations; every function body (build_store, build_store_single,
refresh_packages_view, relimit_packages_view, the marker dispatch, the
constructors) lives in a source file that is not part of the extract, so
the executable model below is reconstructed from the specification's
contracts and from the header's documentation comments.
-/

namespace gui

/-- Modelled from the spec: a catalog entry is an identity pair of a package
identity (pkgCache::PkgIterator) and an optional version identity
(pkgCache::VerIterator, with none playing the role of the end iterator used
for versionless rows). -/
structure CatalogEntry where
  pkg : Nat
  ver : Option Nat
deriving DecidableEq, Repr

/-- Numeric code of the optional version identity (0 for the end iterator). -/
def verKey : Option Nat → Nat
  | none => 0
  | some v => v + 1

/-- Injective sort key of a catalog entry, used by the flat generator's
ordering policy (sort by package identity, then version identity). -/
def entryKey (e : CatalogEntry) : Nat :=
  Nat.pair e.pkg (verKey e.ver)

/-- Modelled from the spec: the display attributes computed by
PackagesColumns::fill_row for one row — the non-iterator columns of
PackagesColumns (BgSet, BgColor, CurrentStatus, SelectedStatus, Name,
Section, Version). -/
structure RowAttributes where
  bgSet : Bool
  bgColor : String
  currentStatus : String
  selectedStatus : String
  name : String
  sect : String
  version : String
deriving DecidableEq, Repr

/-- Modelled from the spec: one displayable unit of the list store — either a
package row carrying its catalog entry (the PkgIterator/VerIterator columns)
together with its display attributes, or a text-only header row written by
PackagesColumns::fill_header. -/
inductive Row where
  | pkgRow (entry : CatalogEntry) (attrs : RowAttributes)
  | headerRow (text : String)
deriving DecidableEq, Repr

/-- The catalog entry a row resolves to (none for a header row). -/
def rowEntry : Row → Option CatalogEntry
  | .pkgRow e _ => some e
  | .headerRow _ => none

/-- Whether a row is a header row. -/
def isHeader : Row → Bool
  | .pkgRow _ _ => false
  | .headerRow _ => true

/-- Sort key of a row: the key of its catalog entry (headers sort first). -/
def rowKey : Row → Nat
  | .pkgRow e _ => entryKey e
  | .headerRow _ => 0

/-- Ordering relation on rows used by the flat generator's finish (sort). -/
def rowLe (a b : Row) : Prop := rowKey a ≤ rowKey b

instance : DecidableRel rowLe := fun a b => Nat.decLe _ _

instance : IsTotal Row rowLe := ⟨fun a b => Nat.le_total _ _⟩

instance : IsTrans Row rowLe := ⟨fun _ _ _ => Nat.le_trans⟩

/-- Ordering relation on catalog entries matching `rowLe` on their rows. -/
def entryLe (a b : CatalogEntry) : Prop := entryKey a ≤ entryKey b

instance : DecidableRel entryLe := fun a b => Nat.decLe _ _

instance : IsTotal CatalogEntry entryLe := ⟨fun a b => Nat.le_total _ _⟩

instance : IsTrans CatalogEntry entryLe := ⟨fun _ _ _ => Nat.le_trans⟩

/-- Modelled from the spec: the externally owned package catalog, reduced to
its interface — the iterable collection of (package, version) entries, and
the EntryFormatter (current_state_string, selected_state_string, colors,
names: the inputs of PackagesColumns::fill_row), which yields the display
attributes of an entry or nothing when they cannot be computed
(FormattingError). -/
structure Catalog where
  entries : List CatalogEntry
  fmt : CatalogEntry → Option RowAttributes

/-- The row built for an entry: fill_row's output attached to the entry, or
none when formatting fails and the entry is skipped. -/
def rowOf (cat : Catalog) (e : CatalogEntry) : Option Row :=
  (cat.fmt e).map (Row.pkgRow e)

/-- The reverse-index pair inserted by add for an entry (none when no row was
generated): the header documents that reverse_packages_store receives one
pair per row generated by add, keyed by the package iterator. -/
def idxPairOf (cat : Catalog) (e : CatalogEntry) : Option (Nat × CatalogEntry) :=
  (cat.fmt e).map (fun _ => (e.pkg, e))

/-- The reverse index: the multimap from package identity to row handle
declared as PackagesView::reverse_packages_store; a handle is the identity
of the row's catalog entry. -/
abbrev ReverseIndex := List (Nat × CatalogEntry)

/-- Modelled from the spec: the private state of a PackagesTreeModelGenerator
— the list store under construction plus the completion flag
PackagesTreeModelGenerator::finished. -/
structure GenState where
  rows : List Row
  finished : Bool
deriving DecidableEq, Repr

/-- A fresh generator: empty store, not finished. -/
def emptyGen : GenState := ⟨[], false⟩

/-- Modelled from the spec: PackagesTreeModelGenerator::add for the flat
generator variant — append one row for the entry to the private store and
insert one pair into the reverse index; on a formatting failure the entry is
skipped (non-fatal) and no pair is inserted. -/
def genAdd (cat : Catalog) (e : CatalogEntry) (g : GenState) (idx : ReverseIndex) :
    GenState × ReverseIndex :=
  match rowOf cat e with
  | some row => (⟨g.rows ++ [row], g.finished⟩, idx ++ [(e.pkg, e)])
  | none => (g, idx)

/-- Modelled from the spec: PackagesTreeModelGenerator::finish — sort the
entire view and mark the generator complete. -/
def genFinish (g : GenState) : GenState :=
  ⟨List.insertionSort rowLe g.rows, true⟩

/-- One event of a build pass: one add call or the final finish call. -/
inductive BuildEvent where
  | evAdd (e : CatalogEntry)
  | evFinish
deriving DecidableEq, Repr

/-- Run one build event against the generator state and reverse index. -/
def runEvent (cat : Catalog) : GenState × ReverseIndex → BuildEvent → GenState × ReverseIndex
  | (g, idx), .evAdd e => genAdd cat e g idx
  | (g, idx), .evFinish => (genFinish g, idx)

/-- Modelled from the spec: the event trace of PackagesView::build_store —
iterate the entire catalog, call add for every entry matching the limit
predicate, then call finish exactly once. -/
def buildTrace (P : CatalogEntry → Bool) (cat : Catalog) : List BuildEvent :=
  (cat.entries.filter P).map BuildEvent.evAdd ++ [BuildEvent.evFinish]

/-- Modelled from the spec: the event trace of PackagesView::build_store_single
— call add exactly once for the given entry, then finish. -/
def buildSingleTrace (e : CatalogEntry) : List BuildEvent :=
  [BuildEvent.evAdd e, BuildEvent.evFinish]

/-- Modelled from the spec: PackagesView::build_store run to completion —
the generator state and reverse index produced by the full filtered build. -/
def build_store (P : CatalogEntry → Bool) (cat : Catalog) : GenState × ReverseIndex :=
  (buildTrace P cat).foldl (runEvent cat) (emptyGen, [])

/-- Modelled from the spec: PackagesView::build_store_single run to
completion for one entry. -/
def build_store_single (cat : Catalog) (e : CatalogEntry) : GenState × ReverseIndex :=
  (buildSingleTrace e).foldl (runEvent cat) (emptyGen, [])

/-- Modelled from the spec: PackagesView::relimit_packages_view — rebuild the
store from scratch for a limit predicate and publish the finished rows
together with the freshly built reverse index. -/
def relimit_packages_view (P : CatalogEntry → Bool) (cat : Catalog) :
    List Row × ReverseIndex :=
  ((build_store P cat).1.rows, (build_store P cat).2)

/-- Whether a row belongs to one of the changed packages (headers never do). -/
def rowTouched (changed : List Nat) : Row → Bool
  | .pkgRow e _ => decide (e.pkg ∈ changed)
  | .headerRow _ => false

/-- Modelled from the spec: the store half of
PackagesView::refresh_packages_view — for each changed package remove every
row mapped to it, then re-synthesize rows for its entries currently passing
the limit and insert each at the position dictated by the store's ordering
policy; rows of untouched packages stay in place. -/
def refresh_store (P : CatalogEntry → Bool) (cat : Catalog) (changed : List Nat)
    (store : List Row) : List Row :=
  ((cat.entries.filter (fun e => decide (e.pkg ∈ changed) && P e)).filterMap
      (rowOf cat)).foldl
    (fun st row => List.orderedInsert rowLe row st)
    (store.filter (fun row => !(rowTouched changed row)))

/-- Modelled from the spec: the index half of
PackagesView::refresh_packages_view — drop the pairs of removed rows the
moment the rows are removed, and record one pair per re-inserted row. -/
def refresh_index (P : CatalogEntry → Bool) (cat : Catalog) (changed : List Nat)
    (idx : ReverseIndex) : ReverseIndex :=
  idx.filter (fun pr => !(decide (pr.1 ∈ changed))) ++
    (cat.entries.filter (fun e => decide (e.pkg ∈ changed) && P e)).filterMap
      (idxPairOf cat)

/-- Modelled from the spec: PackagesView::refresh_packages_view applied to
the live store and index. -/
def refresh_packages_view (P : CatalogEntry → Bool) (cat : Catalog) (changed : List Nat)
    (s : List Row × ReverseIndex) : List Row × ReverseIndex :=
  (refresh_store P cat changed s.1, refresh_index P cat changed s.2)

/-- Modelled from the spec: the state of one PackagesView — the current limit
string, the tree model currently bound to the tree view (none before the
first build), and the reverse_packages_store multimap created empty by
init. -/
structure PackagesView where
  limit : String
  model : Option GenState
  reverse_packages_store : ReverseIndex
deriving Repr

/-- Modelled from the spec: the PackagesView constructor taking a limit
pattern, whose body is not in the extract; per the header's documentation
("The store will not be initialized if _limit is not set") it creates the
empty reverse index and runs a build only when the limit is non-empty.
`limitMatches` interprets a limit pattern as the filter predicate. -/
def PackagesView.create (cat : Catalog) (limitMatches : String → CatalogEntry → Bool)
    (limit : String := "") : PackagesView :=
  if limit = "" then
    { limit := limit, model := none, reverse_packages_store := [] }
  else
    { limit := limit
      model := some (build_store (limitMatches limit) cat).1
      reverse_packages_store := (build_store (limitMatches limit) cat).2 }

/-- The bulk actions of enum PackagesAction. -/
inductive PackagesAction where
  | Install
  | Remove
  | Purge
  | Keep
  | Hold
deriving DecidableEq, Repr

/-- Modelled from the spec: the selected (pending-action) state of a package
in the external catalog, as displayed by selected_state_string. -/
inductive SelectedState where
  | sKeep
  | sInstall
  | sRemove
  | sPurge
  | sHold
deriving DecidableEq, Repr

/-- The selected state a marker action drives a package to: each
PackagesAction translates into the corresponding fixed catalog state
mutation. -/
def actionState : PackagesAction → SelectedState
  | .Install => .sInstall
  | .Remove => .sRemove
  | .Purge => .sPurge
  | .Keep => .sKeep
  | .Hold => .sHold

/-- The catalog's per-package selected states. -/
def CacheState := Nat → SelectedState

/-- Modelled from the spec: PackagesMarker::dispatch — apply one action to
one resolved package, mutating its selected state in the catalog. -/
def dispatch (action : PackagesAction) (pkg : Nat) (st : CacheState) : CacheState :=
  fun q => if q = pkg then actionState action else st q

/-- Modelled from the spec: PackagesMarker::callback mapped over a selection
— resolve each selected row to its catalog entry through the row's iterator
columns, skip header rows silently, and dispatch the action to each resolved
package; all mutations of one call are grouped into one undo group. -/
def applyAction (action : PackagesAction) (rows : List Row) (st : CacheState) : CacheState :=
  rows.foldl
    (fun st row =>
      match row with
      | .pkgRow e _ => dispatch action e.pkg st
      | .headerRow _ => st)
    st

/-- The packages resolved from a selection of rows (headers skipped). -/
def rowPkgs (rows : List Row) : List Nat :=
  rows.filterMap (fun row => (rowEntry row).map (·.pkg))

/-- One orchestrator operation on the live store and reverse index: a
relimit (full rebuild) or a refresh for a changed-package set, each taken at
the catalog state current when the operation runs. -/
inductive ViewOp where
  | relimitOp (P : CatalogEntry → Bool) (cat : Catalog)
  | refreshOp (P : CatalogEntry → Bool) (cat : Catalog) (changed : List Nat)

/-- Run one orchestrator operation. -/
def runOp (s : List Row × ReverseIndex) : ViewOp → List Row × ReverseIndex
  | .relimitOp P cat => relimit_packages_view P cat
  | .refreshOp P cat changed => refresh_packages_view P cat changed s

/-- Run a sequence of operations from the initial empty view. -/
def runOps (ops : List ViewOp) : List Row × ReverseIndex :=
  ops.foldl runOp ([], [])

/-- The catalog entries of the non-header rows of a store. -/
def storeEntries (store : List Row) : List CatalogEntry :=
  store.filterMap rowEntry

/-- The exact correspondence between a live store and its reverse index:
every non-header row has exactly one reverse-index entry (the two multisets
coincide), and every index pair is keyed by its row's package. -/
def inSync (s : List Row × ReverseIndex) : Prop :=
  (storeEntries s.1).Perm (s.2.map Prod.snd) ∧ ∀ pr ∈ s.2, pr.1 = pr.2.pkg

/-- Modelled from the spec: a build in flight on the worker context — the
catalog it reads, the matching entries still to add, and the private
generator state and reverse index it exclusively owns. -/
structure BuildJob where
  cat : Catalog
  todo : List CatalogEntry
  gen : GenState
  idx : ReverseIndex

/-- Modelled from the spec: the shared state of one view as seen from the two
execution contexts — the single published (live) store with its index, and
the worker's in-flight job, if any. -/
structure SysState where
  live : Option (GenState × ReverseIndex)
  job : Option BuildJob

/-- The initial system state: nothing live, no build in flight. -/
def initSys : SysState := ⟨none, none⟩

/-- Modelled from the spec: the interleaved small steps of the build
protocol — the interactive context starts a build; the worker adds entries
one at a time and then calls finish on its private generator; the interactive
context observes the completion flag and performs the single swap that
publishes the finished store and retires the job. -/
inductive SysStep : SysState → SysState → Prop
  | start (s : SysState) (P : CatalogEntry → Bool) (cat : Catalog)
      (h : s.job = none) :
      SysStep s { s with job := some ⟨cat, cat.entries.filter P, emptyGen, []⟩ }
  | work (s : SysState) (j : BuildJob) (e : CatalogEntry) (rest : List CatalogEntry)
      (h : s.job = some j) (he : j.todo = e :: rest) :
      SysStep s { s with
        job := some { j with
          todo := rest
          gen := (genAdd j.cat e j.gen j.idx).1
          idx := (genAdd j.cat e j.gen j.idx).2 } }
  | finishStep (s : SysState) (j : BuildJob)
      (h : s.job = some j) (he : j.todo = []) (hf : j.gen.finished = false) :
      SysStep s { s with job := some { j with gen := genFinish j.gen } }
  | publish (s : SysState) (j : BuildJob)
      (h : s.job = some j) (hf : j.gen.finished = true) :
      SysStep s { live := some (j.gen, j.idx), job := none }

/-- The states reachable from the initial system state. -/
def Reachable (s : SysState) : Prop :=
  Relation.ReflTransGen SysStep initSys s

/-- The canonical shape of a finished flat build: the matching entries in
sorted order, formatted into rows. -/
def canonicalRows (P : CatalogEntry → Bool) (cat : Catalog) : List Row :=
  (List.insertionSort entryLe (cat.entries.filter P)).filterMap (rowOf cat)

/-- Recognizer for finish events of a build trace. -/
def isFinishEv : BuildEvent → Bool
  | .evFinish => true
  | .evAdd _ => false

/-- Recognizer for add events of a build trace. -/
def isAddEv : BuildEvent → Bool
  | .evAdd _ => true
  | .evFinish => false

/-- The catalog with one entry removed from the iteration sequence (the
formatter is untouched). -/
def Catalog.dropEntry (cat : Catalog) (x : CatalogEntry) : Catalog :=
  ⟨cat.entries.filter (fun e => !(decide (e = x))), cat.fmt⟩

/-- Sample display attributes for concrete scenarios. -/
def attrsA : RowAttributes :=
  ⟨false, "white", "installed", "no action", "alpha", "admin", "1.0"⟩

/-- A second, distinct set of display attributes. -/
def attrsB : RowAttributes :=
  ⟨true, "green", "not installed", "install", "beta", "base", "2.0"⟩

/-- A concrete three-entry catalog in which every entry formats. -/
def catA : Catalog :=
  ⟨[⟨1, some 1⟩, ⟨2, none⟩, ⟨3, some 2⟩], fun _ => some attrsA⟩

/-- The same catalog after package 2 changed its display attributes. -/
def catB : Catalog :=
  ⟨[⟨1, some 1⟩, ⟨2, none⟩, ⟨3, some 2⟩],
    fun e => if e.pkg = 2 then some attrsB else some attrsA⟩

/-- A concrete limit predicate: everything except package 3. -/
def limitP : CatalogEntry → Bool := fun e => decide (e.pkg ≠ 3)

/-- A concrete catalog in which package 2 fails to format. -/
def catF : Catalog :=
  ⟨[⟨1, some 1⟩, ⟨2, none⟩], fun e => if e.pkg = 2 then none else some attrsA⟩

/-- A concrete cache state: every package marked for install. -/
def st0 : CacheState := fun _ => SelectedState.sInstall

/-- A one-row selection resolving to package 0. -/
def rows0 : List Row := [Row.pkgRow ⟨0, none⟩ attrsA]

/-- The empty catalog. -/
def catEmpty : Catalog := ⟨[], fun _ => none⟩

/-- A freshly started build job over the empty catalog. -/
def jobA : BuildJob := ⟨catEmpty, [], emptyGen, []⟩

/-- The same job after its finish step. -/
def jobB : BuildJob := ⟨catEmpty, [], ⟨[], true⟩, []⟩

/-- System state with the fresh job in flight. -/
def sysA : SysState := ⟨none, some jobA⟩

/-- System state with the finished job still unpublished. -/
def sysB : SysState := ⟨none, some jobB⟩

/-- System state after the publish step. -/
def sysC : SysState := ⟨some (⟨[], true⟩, []), none⟩

/-! ### Generic machinery: sorted lists over an injective numeric key -/

theorem verKey_inj {a b : Option Nat} (h : verKey a = verKey b) : a = b := by
  cases a <;> cases b <;> simp [verKey] at h <;> simp [h]

theorem entryKey_inj {a b : CatalogEntry} (h : entryKey a = entryKey b) : a = b := by
  unfold entryKey at h
  rw [Nat.pair_eq_pair] at h
  cases a; cases b
  simp only [CatalogEntry.mk.injEq]
  exact ⟨h.1, verKey_inj h.2⟩

theorem pairwise_key_lt_of_le_nodup {α : Type} (key : α → Nat) {l : List α}
    (hs : l.Pairwise (fun a b => key a ≤ key b)) (hn : (l.map key).Nodup) :
    l.Pairwise (fun a b => key a < key b) := by
  have hne : l.Pairwise (fun a b => key a ≠ key b) := List.pairwise_map.mp hn
  exact (hs.and hne).imp (fun h => lt_of_le_of_ne h.1 h.2)

theorem eq_of_perm_of_sorted_key {α : Type} (key : α → Nat) {l₁ l₂ : List α}
    (hp : l₁.Perm l₂)
    (hs₁ : l₁.Pairwise (fun a b => key a ≤ key b))
    (hs₂ : l₂.Pairwise (fun a b => key a ≤ key b))
    (hn : (l₁.map key).Nodup) : l₁ = l₂ := by
  have hn₂ : (l₂.map key).Nodup := (hp.map key).nodup hn
  exact @List.eq_of_perm_of_sorted α (fun a b => key a < key b)
    ⟨fun a b h h2 => absurd (Nat.lt_trans h h2) (Nat.lt_irrefl _)⟩ l₁ l₂ hp
    (pairwise_key_lt_of_le_nodup key hs₁ hn) (pairwise_key_lt_of_le_nodup key hs₂ hn₂)

/-! ### Computation lemmas for the build machinery -/

theorem run_adds (cat : Catalog) :
    ∀ (l : List CatalogEntry) (g : GenState) (idx : ReverseIndex),
      (l.map BuildEvent.evAdd).foldl (runEvent cat) (g, idx) =
        (⟨g.rows ++ l.filterMap (rowOf cat), g.finished⟩,
          idx ++ l.filterMap (idxPairOf cat))
  | [], g, idx => by simp
  | e :: l, g, idx => by
    simp only [List.map_cons, List.foldl_cons, runEvent, genAdd]
    rcases hfmt : cat.fmt e with _ | a
    · have hrow : rowOf cat e = none := by simp [rowOf, hfmt]
      have hpair : idxPairOf cat e = none := by simp [idxPairOf, hfmt]
      rw [hrow]
      simp only [List.filterMap_cons, hrow, hpair]
      exact run_adds cat l g idx
    · have hrow : rowOf cat e = some (Row.pkgRow e a) := by simp [rowOf, hfmt]
      have hpair : idxPairOf cat e = some (e.pkg, e) := by simp [idxPairOf, hfmt]
      rw [hrow]
      simp only [List.filterMap_cons, hrow, hpair]
      rw [run_adds cat l _ _]
      simp [List.append_assoc]

theorem build_store_eq (P : CatalogEntry → Bool) (cat : Catalog) :
    build_store P cat =
      (⟨List.insertionSort rowLe ((cat.entries.filter P).filterMap (rowOf cat)), true⟩,
        (cat.entries.filter P).filterMap (idxPairOf cat)) := by
  unfold build_store buildTrace
  rw [List.foldl_append, run_adds cat _ emptyGen []]
  simp [runEvent, genFinish, emptyGen]

theorem rowKey_of_rowOf {cat : Catalog} {e : CatalogEntry} {r : Row}
    (h : rowOf cat e = some r) : rowKey r = entryKey e := by
  rcases hfmt : cat.fmt e with _ | a <;> simp [rowOf, hfmt] at h
  subst h
  rfl

theorem rowEntry_of_rowOf {cat : Catalog} {e : CatalogEntry} {r : Row}
    (h : rowOf cat e = some r) : rowEntry r = some e := by
  rcases hfmt : cat.fmt e with _ | a <;> simp [rowOf, hfmt] at h
  subst h
  rfl

theorem sorted_rows_of_sorted_entries {cat : Catalog} {l : List CatalogEntry}
    (hs : l.Pairwise entryLe) : (l.filterMap (rowOf cat)).Pairwise rowLe := by
  rw [List.pairwise_filterMap]
  refine hs.imp ?_
  intro a b hab x hx y hy
  have hx2 : rowKey x = entryKey a := rowKey_of_rowOf hx
  have hy2 : rowKey y = entryKey b := rowKey_of_rowOf hy
  unfold rowLe
  rw [hx2, hy2]
  exact hab

theorem map_rowKey_filterMap_sublist (cat : Catalog) :
    ∀ l : List CatalogEntry,
      ((l.filterMap (rowOf cat)).map rowKey).Sublist (l.map entryKey)
  | [] => by simp
  | e :: l => by
    rcases hrow : rowOf cat e with _ | r
    · simp only [List.filterMap_cons, hrow, List.map_cons]
      exact (map_rowKey_filterMap_sublist cat l).cons _
    · simp only [List.filterMap_cons, hrow, List.map_cons, rowKey_of_rowOf hrow]
      exact (map_rowKey_filterMap_sublist cat l).cons₂ _

theorem storeEntries_filterMap (cat : Catalog) :
    ∀ l : List CatalogEntry,
      storeEntries (l.filterMap (rowOf cat)) = (l.filterMap (idxPairOf cat)).map Prod.snd
  | [] => by simp [storeEntries]
  | e :: l => by
    rcases hfmt : cat.fmt e with _ | a
    · simp only [List.filterMap_cons, rowOf, idxPairOf, hfmt, Option.map_none']
      exact storeEntries_filterMap cat l
    · simp only [List.filterMap_cons, rowOf, idxPairOf, hfmt, Option.map_some']
      simp only [storeEntries, List.filterMap_cons, rowEntry, List.map_cons]
      have := storeEntries_filterMap cat l
      simp only [storeEntries] at this
      rw [this]

theorem storeEntries_filterMap_of_isSome {cat : Catalog} :
    ∀ {l : List CatalogEntry}, (∀ e ∈ l, (cat.fmt e).isSome) →
      storeEntries (l.filterMap (rowOf cat)) = l
  | [], _ => by simp [storeEntries]
  | e :: l, h => by
    rcases hfmt : cat.fmt e with _ | a
    · exact absurd (h e (List.mem_cons_self e l)) (by simp [hfmt])
    · simp only [List.filterMap_cons, rowOf, hfmt, Option.map_some']
      simp only [storeEntries, List.filterMap_cons, rowEntry]
      have : storeEntries (l.filterMap (rowOf cat)) = l :=
        storeEntries_filterMap_of_isSome (fun x hx => h x (List.mem_cons_of_mem e hx))
      simp only [storeEntries] at this
      rw [this]

theorem rowTouched_pkgRow (changed : List Nat) (e : CatalogEntry) (a : RowAttributes) :
    rowTouched changed (Row.pkgRow e a) = decide (e.pkg ∈ changed) := rfl

theorem rowTouched_headerRow (changed : List Nat) (t : String) :
    rowTouched changed (Row.headerRow t) = false := rfl

theorem filter_touched_filterMap (cat : Catalog) (changed : List Nat) :
    ∀ l : List CatalogEntry,
      (l.filterMap (rowOf cat)).filter (fun r => !(rowTouched changed r)) =
        (l.filter (fun e => !(decide (e.pkg ∈ changed)))).filterMap (rowOf cat)
  | [] => by simp
  | e :: l => by
    have ih := filter_touched_filterMap cat changed l
    rcases hfmt : cat.fmt e with _ | a
    · have hrow : rowOf cat e = none := by simp [rowOf, hfmt]
      simp only [List.filterMap_cons, hrow, List.filter_cons]
      by_cases hmem : e.pkg ∈ changed <;> simp [hmem, hrow, ih]
    · have hrow : rowOf cat e = some (Row.pkgRow e a) := by simp [rowOf, hfmt]
      simp only [List.filterMap_cons, hrow, List.filter_cons, rowTouched_pkgRow]
      by_cases hmem : e.pkg ∈ changed <;> simp [hmem, hrow, ih]

theorem storeEntries_filter_touched (changed : List Nat) :
    ∀ store : List Row,
      storeEntries (store.filter (fun r => !(rowTouched changed r))) =
        (storeEntries store).filter (fun e => !(decide (e.pkg ∈ changed)))
  | [] => by simp [storeEntries]
  | r :: store => by
    have ih := storeEntries_filter_touched changed store
    simp only [storeEntries] at ih
    cases r with
    | pkgRow e a =>
      have hre : rowEntry (Row.pkgRow e a) = some e := rfl
      simp only [storeEntries, List.filter_cons, rowTouched_pkgRow, List.filterMap_cons, hre]
      by_cases hmem : e.pkg ∈ changed <;>
        simp [hmem, ih, storeEntries, List.filterMap_cons, hre]
    | headerRow t =>
      have hre : rowEntry (Row.headerRow t) = none := rfl
      simp only [storeEntries, List.filter_cons, rowTouched_headerRow, Bool.not_false,
        List.filterMap_cons, hre]
      simp [ih, storeEntries, List.filterMap_cons, hre]

theorem foldl_orderedInsert_perm :
    ∀ (news base : List Row),
      (news.foldl (fun st row => List.orderedInsert rowLe row st) base).Perm (news ++ base)
  | [], base => by simp
  | n :: news, base => by
    simp only [List.foldl_cons, List.cons_append]
    have h1 : (news.foldl (fun st row => List.orderedInsert rowLe row st)
        (List.orderedInsert rowLe n base)).Perm
        (news ++ List.orderedInsert rowLe n base) := foldl_orderedInsert_perm news _
    have h2 : (news ++ List.orderedInsert rowLe n base).Perm (news ++ n :: base) :=
      (List.perm_orderedInsert rowLe n base).append_left news
    have h3 : (news ++ n :: base).Perm (n :: (news ++ base)) := List.perm_middle
    exact (h1.trans h2).trans h3

theorem foldl_orderedInsert_sorted :
    ∀ (news base : List Row), base.Pairwise rowLe →
      (news.foldl (fun st row => List.orderedInsert rowLe row st) base).Pairwise rowLe
  | [], _, h => h
  | n :: news, base, h => by
    simp only [List.foldl_cons]
    exact foldl_orderedInsert_sorted news _ (List.Sorted.orderedInsert n base h)

theorem partition_filter_perm {α : Type} (p q : α → Bool) :
    ∀ l : List α,
      ((l.filter (fun a => q a && p a)) ++ (l.filter (fun a => !q a && p a))).Perm
        (l.filter p)
  | [] => by simp
  | a :: l => by
    rcases hq : q a <;> rcases hp : p a <;>
      simp only [List.filter_cons, hq, hp, Bool.and_true, Bool.and_false, Bool.not_true,
        Bool.not_false, Bool.true_and, Bool.false_and, if_true, if_false, List.cons_append]
    · exact partition_filter_perm p q l
    · exact (List.perm_middle.trans ((partition_filter_perm p q l).cons a)).symm.symm
    · exact partition_filter_perm p q l
    · exact (partition_filter_perm p q l).cons a

theorem map_snd_filter_keyed (changed : List Nat) :
    ∀ idx : ReverseIndex, (∀ pr ∈ idx, pr.1 = pr.2.pkg) →
      (idx.filter (fun pr => !(decide (pr.1 ∈ changed)))).map Prod.snd =
        (idx.map Prod.snd).filter (fun e => !(decide (e.pkg ∈ changed)))
  | [], _ => rfl
  | pr :: idx, h => by
    have hpr : pr.1 = pr.2.pkg := h pr (List.mem_cons_self pr idx)
    have hrest := map_snd_filter_keyed changed idx
      (fun x hx => h x (List.mem_cons_of_mem pr hx))
    simp only [List.filter_cons, List.map_cons, hpr]
    by_cases hmem : pr.2.pkg ∈ changed <;> simp [hmem, hrest]

theorem mem_idxPair_shape {cat : Catalog} {l : List CatalogEntry}
    {pr : Nat × CatalogEntry} (h : pr ∈ l.filterMap (idxPairOf cat)) :
    pr.1 = pr.2.pkg := by
  rcases List.mem_filterMap.mp h with ⟨e, _, he⟩
  rcases hfmt : cat.fmt e with _ | a <;> simp [idxPairOf, hfmt] at he
  rw [← he]

theorem nodup_keys_filter {l : List CatalogEntry} (hn : (l.map entryKey).Nodup)
    (q : CatalogEntry → Bool) : ((l.filter q).map entryKey).Nodup :=
  List.Nodup.sublist ((l.filter_sublist).map entryKey) hn

theorem build_rows_canonical (P : CatalogEntry → Bool) (cat : Catalog)
    (hn : ((cat.entries.filter P).map entryKey).Nodup) :
    (build_store P cat).1.rows = canonicalRows P cat := by
  rw [build_store_eq]
  dsimp only
  have hX : ((cat.entries.filter P).filterMap (rowOf cat)).map rowKey |>.Nodup :=
    List.Nodup.sublist (map_rowKey_filterMap_sublist cat (cat.entries.filter P)) hn
  apply eq_of_perm_of_sorted_key rowKey
  · exact (List.perm_insertionSort rowLe _).trans
      ((List.perm_insertionSort entryLe (cat.entries.filter P)).symm.filterMap (rowOf cat))
  · exact List.sorted_insertionSort rowLe _
  · exact sorted_rows_of_sorted_entries (List.sorted_insertionSort entryLe _)
  · exact ((List.perm_insertionSort rowLe _).symm.map rowKey).nodup hX

theorem insertionSort_entry_congr {l₁ l₂ : List CatalogEntry} (hp : l₁.Perm l₂)
    (hn : (l₁.map entryKey).Nodup) :
    List.insertionSort entryLe l₁ = List.insertionSort entryLe l₂ := by
  apply eq_of_perm_of_sorted_key entryKey
  · exact (List.perm_insertionSort entryLe l₁).trans
      (hp.trans (List.perm_insertionSort entryLe l₂).symm)
  · exact List.sorted_insertionSort entryLe _
  · exact List.sorted_insertionSort entryLe _
  · exact ((List.perm_insertionSort entryLe l₁).symm.map entryKey).nodup hn

theorem insertionSort_filter (q : CatalogEntry → Bool) (l : List CatalogEntry)
    (hn : (l.map entryKey).Nodup) :
    (List.insertionSort entryLe l).filter q = List.insertionSort entryLe (l.filter q) := by
  apply eq_of_perm_of_sorted_key entryKey
  · exact ((List.perm_insertionSort entryLe l).filter q).trans
      (List.perm_insertionSort entryLe (l.filter q)).symm
  · exact List.Sorted.filter q (List.sorted_insertionSort entryLe l)
  · exact List.sorted_insertionSort entryLe _
  · exact List.Nodup.sublist ((List.filter_sublist _).map entryKey)
      (((List.perm_insertionSort entryLe l).symm.map entryKey).nodup hn)

/-- CLAIM C3: refreshing a live store built under some predicate,
with a changed-package set covering every package whose catalog membership
or display attributes differ between the old and the new catalog state,
yields exactly the store a fresh relimit with the same predicate would
build from the new catalog state. -/
theorem refresh_matches_relimit (P : CatalogEntry → Bool) (cat cat2 : Catalog)
    (changed : List Nat)
    (hn : (cat.entries.map entryKey).Nodup)
    (hn2 : (cat2.entries.map entryKey).Nodup)
    (hmem : ∀ e : CatalogEntry, e.pkg ∉ changed → (e ∈ cat.entries ↔ e ∈ cat2.entries))
    (hfmt : ∀ e : CatalogEntry, e.pkg ∉ changed → cat.fmt e = cat2.fmt e) :
    (refresh_packages_view P cat2 changed (relimit_packages_view P cat)).1 =
      (relimit_packages_view P cat2).1 := by
  simp only [refresh_packages_view, relimit_packages_view]
  rw [build_rows_canonical P cat (nodup_keys_filter hn P),
    build_rows_canonical P cat2 (nodup_keys_filter hn2 P)]
  unfold refresh_store canonicalRows
  rw [filter_touched_filterMap cat changed]
  rw [insertionSort_filter _ _ (nodup_keys_filter hn P)]
  rw [List.filter_filter]
  set c₂ : CatalogEntry → Bool := fun e => !(decide (e.pkg ∈ changed)) && P e with hc₂
  have hnotmem : ∀ {e : CatalogEntry}, c₂ e = true → e.pkg ∉ changed := by
    intro e he
    have := (Bool.and_eq_true _ _).mp he
    simpa using this.1
  have hstep5 :
      (List.insertionSort entryLe (cat.entries.filter c₂)).filterMap (rowOf cat) =
        (List.insertionSort entryLe (cat.entries.filter c₂)).filterMap (rowOf cat2) := by
    apply List.filterMap_congr
    intro e he
    have he2 : e ∈ cat.entries.filter c₂ :=
      (List.perm_insertionSort entryLe _).mem_iff.mp he
    have hc : c₂ e = true := (List.mem_filter.mp he2).2
    unfold rowOf
    rw [hfmt e (hnotmem hc)]
  have hstep6 :
      List.insertionSort entryLe (cat.entries.filter c₂) =
        List.insertionSort entryLe (cat2.entries.filter c₂) := by
    apply insertionSort_entry_congr
    · apply (List.perm_ext_iff_of_nodup
        (List.Nodup.of_map entryKey (nodup_keys_filter hn c₂))
        (List.Nodup.of_map entryKey (nodup_keys_filter hn2 c₂))).mpr
      intro e
      simp only [List.mem_filter]
      constructor
      · rintro ⟨hin, hc⟩
        exact ⟨(hmem e (hnotmem hc)).mp hin, hc⟩
      · rintro ⟨hin, hc⟩
        exact ⟨(hmem e (hnotmem hc)).mpr hin, hc⟩
    · exact nodup_keys_filter hn c₂
  rw [hstep5, hstep6]
  set c₁ : CatalogEntry → Bool := fun e => decide (e.pkg ∈ changed) && P e with hc₁
  have hkept_sorted :
      ((List.insertionSort entryLe (cat2.entries.filter c₂)).filterMap
        (rowOf cat2)).Pairwise rowLe :=
    sorted_rows_of_sorted_entries (List.sorted_insertionSort entryLe _)
  have hperm :
      ((List.insertionSort entryLe (cat2.entries.filter P)).filterMap (rowOf cat2)).Perm
        (((cat2.entries.filter c₁).filterMap (rowOf cat2)).foldl
          (fun st row => List.orderedInsert rowLe row st)
          ((List.insertionSort entryLe (cat2.entries.filter c₂)).filterMap (rowOf cat2))) := by
    have h1 := foldl_orderedInsert_perm
      ((cat2.entries.filter c₁).filterMap (rowOf cat2))
      ((List.insertionSort entryLe (cat2.entries.filter c₂)).filterMap (rowOf cat2))
    have h2 :
        ((cat2.entries.filter c₁).filterMap (rowOf cat2) ++
          (List.insertionSort entryLe (cat2.entries.filter c₂)).filterMap
            (rowOf cat2)).Perm
        ((cat2.entries.filter c₁).filterMap (rowOf cat2) ++
          (cat2.entries.filter c₂).filterMap (rowOf cat2)) :=
      ((List.perm_insertionSort entryLe _).filterMap (rowOf cat2)).append_left _
    have h3 :
        ((cat2.entries.filter c₁).filterMap (rowOf cat2) ++
          (cat2.entries.filter c₂).filterMap (rowOf cat2)).Perm
        ((cat2.entries.filter P).filterMap (rowOf cat2)) := by
      rw [← List.filterMap_append]
      exact (partition_filter_perm P (fun e => decide (e.pkg ∈ changed))
        cat2.entries).filterMap (rowOf cat2)
    have h4 :
        ((cat2.entries.filter P).filterMap (rowOf cat2)).Perm
        ((List.insertionSort entryLe (cat2.entries.filter P)).filterMap (rowOf cat2)) :=
      ((List.perm_insertionSort entryLe _).symm).filterMap (rowOf cat2)
    exact (h4.symm.trans (h3.symm.trans (h2.symm.trans h1.symm)))
  have hnl :
      (((List.insertionSort entryLe (cat2.entries.filter P)).filterMap
        (rowOf cat2)).map rowKey).Nodup := by
    apply List.Nodup.sublist (map_rowKey_filterMap_sublist cat2 _)
    exact ((List.perm_insertionSort entryLe _).symm.map entryKey).nodup
      (nodup_keys_filter hn2 P)
  exact (eq_of_perm_of_sorted_key rowKey hperm
    (sorted_rows_of_sorted_entries (List.sorted_insertionSort entryLe _))
    (foldl_orderedInsert_sorted _ _ hkept_sorted) hnl).symm

theorem inSync_relimit (P : CatalogEntry → Bool) (cat : Catalog) :
    inSync (relimit_packages_view P cat) := by
  unfold inSync relimit_packages_view
  rw [build_store_eq]
  dsimp only
  constructor
  · have h1 : (storeEntries
        (List.insertionSort rowLe ((cat.entries.filter P).filterMap (rowOf cat)))).Perm
        (storeEntries ((cat.entries.filter P).filterMap (rowOf cat))) :=
      (List.perm_insertionSort rowLe _).filterMap rowEntry
    rw [storeEntries_filterMap cat] at h1
    exact h1
  · intro pr hpr
    exact mem_idxPair_shape hpr

theorem inSync_refresh (P : CatalogEntry → Bool) (cat : Catalog) (changed : List Nat)
    (s : List Row × ReverseIndex) (h : inSync s) :
    inSync (refresh_packages_view P cat changed s) := by
  obtain ⟨hperm, hkey⟩ := h
  unfold inSync refresh_packages_view refresh_store refresh_index
  dsimp only
  constructor
  · have h1 : (storeEntries
        (((cat.entries.filter (fun e => decide (e.pkg ∈ changed) && P e)).filterMap
          (rowOf cat)).foldl (fun st row => List.orderedInsert rowLe row st)
          (s.1.filter (fun row => !(rowTouched changed row))))).Perm
        (storeEntries
          ((cat.entries.filter (fun e => decide (e.pkg ∈ changed) && P e)).filterMap
            (rowOf cat) ++ s.1.filter (fun row => !(rowTouched changed row)))) :=
      (foldl_orderedInsert_perm _ _).filterMap rowEntry
    have h2 : storeEntries
        ((cat.entries.filter (fun e => decide (e.pkg ∈ changed) && P e)).filterMap
          (rowOf cat) ++ s.1.filter (fun row => !(rowTouched changed row))) =
        storeEntries ((cat.entries.filter (fun e => decide (e.pkg ∈ changed) && P e)).filterMap
          (rowOf cat)) ++ storeEntries (s.1.filter (fun row => !(rowTouched changed row))) := by
      unfold storeEntries
      exact List.filterMap_append _ _ _
    have h3 : storeEntries ((cat.entries.filter
        (fun e => decide (e.pkg ∈ changed) && P e)).filterMap (rowOf cat)) =
        ((cat.entries.filter (fun e => decide (e.pkg ∈ changed) && P e)).filterMap
          (idxPairOf cat)).map Prod.snd :=
      storeEntries_filterMap cat _
    have h4 : storeEntries (s.1.filter (fun row => !(rowTouched changed row))) =
        (storeEntries s.1).filter (fun e => !(decide (e.pkg ∈ changed))) :=
      storeEntries_filter_touched changed s.1
    have h5 : ((storeEntries s.1).filter (fun e => !(decide (e.pkg ∈ changed)))).Perm
        ((s.2.map Prod.snd).filter (fun e => !(decide (e.pkg ∈ changed)))) :=
      hperm.filter _
    have h6 : (s.2.filter (fun pr => !(decide (pr.1 ∈ changed)))).map Prod.snd =
        (s.2.map Prod.snd).filter (fun e => !(decide (e.pkg ∈ changed))) :=
      map_snd_filter_keyed changed s.2 hkey
    rw [List.map_append, h6]
    refine (h1.trans ?_)
    rw [h2, h3, h4]
    exact (h5.append_left _).trans List.perm_append_comm
  · intro pr hpr
    rcases List.mem_append.mp hpr with hl | hr
    · exact hkey pr (List.mem_of_mem_filter hl)
    · exact mem_idxPair_shape hr

theorem inSync_foldl :
    ∀ (ops : List ViewOp) (s : List Row × ReverseIndex), inSync s →
      inSync (ops.foldl runOp s)
  | [], _, h => h
  | op :: ops, s, h => by
    simp only [List.foldl_cons]
    apply inSync_foldl ops
    cases op with
    | relimitOp P cat => exact inSync_relimit P cat
    | refreshOp P cat changed => exact inSync_refresh P cat changed s h

theorem take_append_single {α : Type} (x : α) :
    ∀ (l : List α) (i : Nat), i ≤ l.length → (l ++ [x]).take i = l.take i
  | _, 0, _ => by simp
  | [], i + 1, h => absurd h (by simp)
  | a :: l, i + 1, h => by
    simp only [List.cons_append, List.take_succ_cons]
    rw [take_append_single x l i (Nat.le_of_succ_le_succ h)]

theorem countP_isFinish_adds (l : List CatalogEntry) :
    ((l.map BuildEvent.evAdd).countP isFinishEv) = 0 := by
  apply List.countP_eq_zero.mpr
  intro a ha
  rcases List.mem_map.mp ha with ⟨e, _, rfl⟩
  simp [isFinishEv]

theorem build_store_single_some {cat : Catalog} {e : CatalogEntry} {a : RowAttributes}
    (h : cat.fmt e = some a) :
    build_store_single cat e = (⟨[Row.pkgRow e a], true⟩, [(e.pkg, e)]) := by
  unfold build_store_single buildSingleTrace
  simp [runEvent, genAdd, genFinish, rowOf, h, emptyGen, List.insertionSort,
    List.orderedInsert]

theorem filterMap_rowOf_drop {cat : Catalog} {x : CatalogEntry} (hx : cat.fmt x = none) :
    ∀ l : List CatalogEntry,
      l.filterMap (rowOf cat) = (l.filter (fun e => !(decide (e = x)))).filterMap (rowOf cat)
  | [] => rfl
  | e :: l => by
    by_cases he : e = x
    · subst he
      have hrow : rowOf cat e = none := by simp [rowOf, hx]
      simp [hrow, filterMap_rowOf_drop hx l]
    · simp [he, List.filterMap_cons, filterMap_rowOf_drop hx l]

theorem filterMap_idxPairOf_drop {cat : Catalog} {x : CatalogEntry} (hx : cat.fmt x = none) :
    ∀ l : List CatalogEntry,
      l.filterMap (idxPairOf cat) =
        (l.filter (fun e => !(decide (e = x)))).filterMap (idxPairOf cat)
  | [] => rfl
  | e :: l => by
    by_cases he : e = x
    · subst he
      have hpair : idxPairOf cat e = none := by simp [idxPairOf, hx]
      simp [hpair, filterMap_idxPairOf_drop hx l]
    · simp [he, List.filterMap_cons, filterMap_idxPairOf_drop hx l]

theorem applyAction_eq (a : PackagesAction) :
    ∀ (rows : List Row) (st : CacheState) (p : Nat),
      applyAction a rows st p = if p ∈ rowPkgs rows then actionState a else st p
  | [], st, p => by simp [applyAction, rowPkgs]
  | r :: rows, st, p => by
    cases r with
    | pkgRow e attrs =>
      have ih := applyAction_eq a rows (dispatch a e.pkg st) p
      simp only [applyAction, List.foldl_cons] at ih ⊢
      rw [ih]
      have hpk : rowPkgs (Row.pkgRow e attrs :: rows) = e.pkg :: rowPkgs rows := by
        simp [rowPkgs, rowEntry]
      rw [hpk]
      by_cases h1 : p ∈ rowPkgs rows
      · simp [h1, List.mem_cons]
      · by_cases h2 : p = e.pkg <;> simp [h1, h2, dispatch, List.mem_cons]
    | headerRow t =>
      have ih := applyAction_eq a rows st p
      simp only [applyAction, List.foldl_cons] at ih ⊢
      rw [ih]
      have hpk : rowPkgs (Row.headerRow t :: rows) = rowPkgs rows := by
        simp [rowPkgs, rowEntry]
      rw [hpk]

theorem sysStep_preserves_live {s t : SysState} (hstep : SysStep s t)
    (h : ∀ g i, s.live = some (g, i) → g.finished = true) :
    ∀ g i, t.live = some (g, i) → g.finished = true := by
  cases hstep with
  | start P cat h2 => exact h
  | work j e rest h2 he => exact h
  | finishStep j h2 he hf => exact h
  | publish j h2 hf =>
    intro g i hgi
    simp only [Option.some.injEq, Prod.mk.injEq] at hgi
    rw [← hgi.1]
    exact hf


theorem build_store_single_none {cat : Catalog} {e : CatalogEntry}
    (h : cat.fmt e = none) : build_store_single cat e = (⟨[], true⟩, []) := by
  unfold build_store_single buildSingleTrace
  simp [runEvent, genAdd, genFinish, rowOf, h, emptyGen, List.insertionSort]

/-! ### The claims -/

/-- CLAIM C1: for every filter predicate, the catalog entries that own a row
in the store produced by a full build are exactly the entries satisfying the
predicate — no omission, no duplicate beyond one row per catalog entry
(provided every entry's display attributes can be computed). -/
theorem build_store_exact (P : CatalogEntry → Bool) (cat : Catalog)
    (hfmt : ∀ e ∈ cat.entries, (cat.fmt e).isSome) :
    (storeEntries (relimit_packages_view P cat).1).Perm (cat.entries.filter P) ∧
    ∀ e : CatalogEntry,
      e ∈ storeEntries (relimit_packages_view P cat).1 ↔ e ∈ cat.entries ∧ P e = true := by
  have hall : ∀ e ∈ cat.entries.filter P, (cat.fmt e).isSome :=
    fun e he => hfmt e (List.mem_of_mem_filter he)
  have h1 : (storeEntries (relimit_packages_view P cat).1).Perm
      (storeEntries ((cat.entries.filter P).filterMap (rowOf cat))) := by
    simp only [relimit_packages_view]
    rw [build_store_eq]
    exact (List.perm_insertionSort rowLe _).filterMap rowEntry
  have h2 : storeEntries ((cat.entries.filter P).filterMap (rowOf cat)) =
      cat.entries.filter P := storeEntries_filterMap_of_isSome hall
  have hp : (storeEntries (relimit_packages_view P cat).1).Perm (cat.entries.filter P) :=
    h2 ▸ h1
  refine ⟨hp, fun e => ?_⟩
  rw [hp.mem_iff, List.mem_filter]

/-- Witness for C1 at a concrete catalog and predicate. -/
theorem build_store_exact_witness :
    (storeEntries (relimit_packages_view limitP catA).1).Perm
      (catA.entries.filter limitP) :=
  (build_store_exact limitP catA (by decide)).1

/-- CLAIM C2: after any sequence of relimit and refresh operations starting
from the empty view, the live store and the reverse index correspond
exactly — every non-header row has exactly one reverse-index entry and
every index entry references a row present in the store. -/
theorem reverse_index_exact (ops : List ViewOp) : inSync (runOps ops) := by
  unfold runOps
  apply inSync_foldl
  exact ⟨List.Perm.refl [], fun pr hpr => absurd hpr (List.not_mem_nil pr)⟩

/-- Witness for C3: package 2 changes attributes, refresh of that package
reproduces the rebuilt store. -/
theorem refresh_matches_relimit_witness :
    (refresh_packages_view limitP catB [2] (relimit_packages_view limitP catA)).1 =
      (relimit_packages_view limitP catB).1 := by
  apply refresh_matches_relimit limitP catA catB [2]
  · decide
  · decide
  · intro e h
    exact Iff.rfl
  · intro e h
    have h2 : e.pkg ≠ 2 := by simpa using h
    simp [catA, catB, h2]

/-- CLAIM C4: a single-entry build (also for a versionless entry) calls add
exactly once and yields a store with exactly one row, reverse-indexed to the
entry's package, containing no header row. -/
theorem build_store_single_spec (cat : Catalog) (e : CatalogEntry) (a : RowAttributes)
    (h : cat.fmt e = some a) :
    (build_store_single cat e).1.rows = [Row.pkgRow e a] ∧
    (build_store_single cat e).2 = [(e.pkg, e)] ∧
    (∀ r ∈ (build_store_single cat e).1.rows, isHeader r = false ∧ rowEntry r = some e) ∧
    (buildSingleTrace e).countP isAddEv = 1 := by
  rw [build_store_single_some h]
  refine ⟨rfl, rfl, ?_, ?_⟩
  · intro r hr
    obtain rfl := List.mem_singleton.mp hr
    exact ⟨rfl, rfl⟩
  · simp [buildSingleTrace, List.countP_cons, isAddEv]

/-- Witness for C4 at a versionless, not-listed package. -/
theorem build_store_single_spec_witness :
    (build_store_single catA ⟨5, none⟩).1.rows = [Row.pkgRow ⟨5, none⟩ attrsA] ∧
    (build_store_single catA ⟨5, none⟩).2 = [(5, ⟨5, none⟩)] :=
  ⟨(build_store_single_spec catA ⟨5, none⟩ attrsA rfl).1,
    (build_store_single_spec catA ⟨5, none⟩ attrsA rfl).2.1⟩

/-- Counterexample for C5 as stated: applying Hold then Keep to a selection
whose package was marked for install leaves it at Keep, not at its pre-Hold
selected state. -/
theorem hold_keep_no_roundtrip :
    applyAction PackagesAction.Keep rows0 (applyAction PackagesAction.Hold rows0 st0) 0 ≠
      st0 0 := by decide

/-- CLAIM C5 (amended): applying Hold then Keep to the same rows drives every
resolved package's selected state to Keep and leaves the others untouched;
the pre-Hold value is restored exactly for the entries whose pre-Hold
selected state was already Keep. -/
theorem hold_then_keep (rows : List Row) (st : CacheState) (p : Nat) :
    applyAction PackagesAction.Keep rows (applyAction PackagesAction.Hold rows st) p =
      (if p ∈ rowPkgs rows then SelectedState.sKeep else st p) ∧
    (applyAction PackagesAction.Keep rows (applyAction PackagesAction.Hold rows st) p =
        st p ↔ (p ∈ rowPkgs rows → st p = SelectedState.sKeep)) := by
  have h1 := applyAction_eq PackagesAction.Keep rows
    (applyAction PackagesAction.Hold rows st) p
  have h2 := applyAction_eq PackagesAction.Hold rows st p
  rw [h1, h2]
  by_cases hp : p ∈ rowPkgs rows
  · simp [hp, actionState, eq_comm]
  · simp [hp, actionState]

/-- CLAIM C6: both build paths call finish exactly once, as the last event of
the trace; the completion flag is false after every proper prefix of the
trace and true once the whole trace has run. -/
theorem finish_discipline (P : CatalogEntry → Bool) (cat : Catalog) (e : CatalogEntry) :
    ((buildTrace P cat).countP isFinishEv = 1 ∧
      (buildTrace P cat).getLast? = some BuildEvent.evFinish ∧
      (∀ i, i < (buildTrace P cat).length →
        (((buildTrace P cat).take i).foldl (runEvent cat) (emptyGen, [])).1.finished =
          false) ∧
      (build_store P cat).1.finished = true) ∧
    ((buildSingleTrace e).countP isFinishEv = 1 ∧
      (buildSingleTrace e).getLast? = some BuildEvent.evFinish ∧
      (∀ i, i < (buildSingleTrace e).length →
        (((buildSingleTrace e).take i).foldl (runEvent cat) (emptyGen, [])).1.finished =
          false) ∧
      (build_store_single cat e).1.finished = true) := by
  refine ⟨⟨?_, ?_, ?_, ?_⟩, ?_, ?_, ?_, ?_⟩
  · simp [buildTrace, List.countP_append, countP_isFinish_adds, List.countP_cons,
      isFinishEv]
  · simp [buildTrace, List.getLast?_concat]
  · intro i hi
    have hlen : i ≤ ((cat.entries.filter P).map BuildEvent.evAdd).length := by
      simp only [buildTrace, List.length_append, List.length_cons, List.length_nil,
        List.length_map] at hi
      simp only [List.length_map]
      omega
    rw [show buildTrace P cat =
      (cat.entries.filter P).map BuildEvent.evAdd ++ [BuildEvent.evFinish] from rfl]
    rw [take_append_single _ _ _ hlen, ← List.map_take]
    rw [run_adds cat _ emptyGen []]
    rfl
  · rw [build_store_eq]
  · simp [buildSingleTrace, List.countP_cons, isFinishEv]
  · rfl
  · intro i hi
    simp only [buildSingleTrace, List.length_cons, List.length_nil] at hi
    match i, hi with
    | 0, _ => rfl
    | 1, _ =>
      show ((runEvent cat (emptyGen, []) (BuildEvent.evAdd e)).1.finished = false)
      rcases h : cat.fmt e with _ | a <;>
        simp [runEvent, genAdd, rowOf, h, emptyGen]
  · rcases h : cat.fmt e with _ | a
    · rw [build_store_single_none h]
    · rw [build_store_single_some h]

/-- Witness for C6: the flag is still false after the empty prefix of a
concrete build trace. -/
theorem finish_discipline_witness :
    (((buildTrace limitP catA).take 0).foldl (runEvent catA) (emptyGen, [])).1.finished =
      false :=
  (finish_discipline limitP catA ⟨5, none⟩).1.2.2.1 0 (by decide)

/-- CLAIM C7: when one entry's display attributes cannot be computed, the
full build produces exactly the result of the build over the catalog without
that entry — the failure skips only that entry, the build continues, and no
row for the failing entry appears. -/
theorem formatting_error_skips (P : CatalogEntry → Bool) (cat : Catalog)
    (x : CatalogEntry) (hx : cat.fmt x = none) :
    build_store P cat = build_store P (cat.dropEntry x) ∧
    ∀ r ∈ (build_store P cat).1.rows, rowEntry r ≠ some x := by
  constructor
  · rw [build_store_eq, build_store_eq]
    have hent : (cat.dropEntry x).entries =
        cat.entries.filter (fun e => !(decide (e = x))) := rfl
    have hrowf : rowOf (cat.dropEntry x) = rowOf cat := rfl
    have hpairf : idxPairOf (cat.dropEntry x) = idxPairOf cat := rfl
    rw [hent, hrowf, hpairf]
    have hcomm : (cat.entries.filter (fun e => !(decide (e = x)))).filter P =
        (cat.entries.filter P).filter (fun e => !(decide (e = x))) := by
      rw [List.filter_filter, List.filter_filter]
      exact List.filter_congr (fun a _ => Bool.and_comm _ _)
    rw [hcomm, ← filterMap_rowOf_drop hx (cat.entries.filter P),
      ← filterMap_idxPairOf_drop hx (cat.entries.filter P)]
  · intro r hr
    rw [build_store_eq] at hr
    have hr2 : r ∈ (cat.entries.filter P).filterMap (rowOf cat) :=
      (List.perm_insertionSort rowLe _).mem_iff.mp hr
    rcases List.mem_filterMap.mp hr2 with ⟨e2, _, hre⟩
    intro hcontra
    have he2 : rowEntry r = some e2 := rowEntry_of_rowOf hre
    rw [hcontra] at he2
    obtain rfl : x = e2 := Option.some.inj he2
    simp [rowOf, hx] at hre

/-- Witness for C7: the build over a catalog whose package 2 fails to format
equals the build over the catalog without that entry. -/
theorem formatting_error_skips_witness :
    build_store limitP catF = build_store limitP (catF.dropEntry ⟨2, none⟩) :=
  (formatting_error_skips limitP catF ⟨2, none⟩ rfl).1

/-- CLAIM C8: in every reachable state of the interleaved build protocol the
published (live) store is a finished one — the interactive context never
observes a partially built store, at most one store is live at a time, and
the only step that changes the live store is the single publish of a
finished job. -/
theorem atomic_publish (s : SysState) (hs : Reachable s) (t : SysState) :
    (∀ g i, s.live = some (g, i) → g.finished = true) ∧
    (SysStep s t → t.live ≠ s.live →
      ∃ j, s.job = some j ∧ j.gen.finished = true ∧
        t.live = some (j.gen, j.idx) ∧ t.job = none) := by
  constructor
  · unfold Reachable at hs
    induction hs with
    | refl =>
      intro g i h
      simp [initSys] at h
    | tail h1 h2 ih => exact sysStep_preserves_live h2 ih
  · intro hstep hne
    cases hstep with
    | start P cat h2 => exact absurd rfl hne
    | work j e rest h2 he => exact absurd rfl hne
    | finishStep j h2 he hf => exact absurd rfl hne
    | publish j h2 hf => exact ⟨j, h2, hf, rfl, rfl⟩

/-- Witness for C8: a concrete three-step run (start, finish, publish) ends in
a reachable state whose live store is finished. -/
theorem atomic_publish_witness :
    sysC.live = some (⟨[], true⟩, ([] : ReverseIndex)) ∧
      (⟨[], true⟩ : GenState).finished = true := by
  have h1 : SysStep initSys sysA :=
    SysStep.start initSys (fun _ => true) catEmpty rfl
  have h2 : SysStep sysA sysB := SysStep.finishStep sysA jobA rfl rfl rfl
  have h3 : SysStep sysB sysC := SysStep.publish sysB jobB rfl rfl
  have hreach : Reachable sysC :=
    Relation.ReflTransGen.tail
      (Relation.ReflTransGen.tail
        (Relation.ReflTransGen.tail Relation.ReflTransGen.refl h1) h2) h3
  exact ⟨rfl, (atomic_publish sysC hreach sysC).1 ⟨[], true⟩ [] rfl⟩

/-- CLAIM C9: refreshing with an empty changed-package set changes nothing —
the live store and the reverse index come back exactly as they were. -/
theorem refresh_empty_noop (P : CatalogEntry → Bool) (cat : Catalog)
    (s : List Row × ReverseIndex) :
    refresh_packages_view P cat [] s = s := by
  unfold refresh_packages_view refresh_store refresh_index
  have hnew : cat.entries.filter (fun e => decide (e.pkg ∈ ([] : List Nat)) && P e) =
      [] := by
    simp
  have hstore : s.1.filter (fun row => !(rowTouched [] row)) = s.1 := by
    apply List.filter_eq_self.mpr
    intro r _
    cases r <;> simp [rowTouched]
  have hidx : s.2.filter (fun pr => !(decide (pr.1 ∈ ([] : List Nat)))) = s.2 := by
    apply List.filter_eq_self.mpr
    intro pr _
    simp
  rw [hnew, hstore, hidx]
  simp

/-- CLAIM C10: constructing a PackagesView with the limit left at its default
empty value performs no build — no store is bound and the reverse index is
created empty, until a relimit arrives. -/
theorem create_unlimited_inert (cat : Catalog)
    (lm : String → CatalogEntry → Bool) :
    PackagesView.create cat lm =
      { limit := "", model := none, reverse_packages_store := [] } := rfl

end gui
